import Mathlib

/-!
Verification development for the drgrep pattern-matching engines.

The definitions below are a shallow embedding of `src/regex/pattern.rs`
(the `SimplePattern` regex engine) and `src/glob.rs` (the `GlobPattern`
glob engine).  Text is modelled as `List Char` (the sequence produced by
Rust's `str::chars()`), and byte offsets are recovered with
`Char.utf8Size`, exactly as Rust's `char_indices` does.  A Rust panic is
modelled as `Except.error ()`; loops whose termination depends on runtime
data take an explicit fuel argument and signal exhaustion with `none`.
-/

namespace DrGrep

/-- Byte length of a character sequence, as `str::len` reports for the
corresponding Rust string. -/
def byteLen (t : List Char) : Nat := (t.map Char.utf8Size).sum

/-- Byte offset of the character at index `k`, i.e. the byte length of the
first `k` characters.  `byteLen (t.take t.length) = byteLen t`. -/
def byteIdxOf (t : List Char) (k : Nat) : Nat := byteLen (t.take k)

/-- `text.char_indices().nth(k)` from the source: the byte offset of the
`k`-th character when it exists, `none` otherwise. -/
def charIndicesNth (t : List Char) (k : Nat) : Option Nat :=
  if k < t.length then some (byteIdxOf t k) else none

/-- Byte-offset slicing of a character sequence: a character is kept when
its byte span `[p, p + utf8Size)` lies inside `[a, b)`.  On the
char-boundary offsets produced by `charIndicesNth` this is exactly Rust's
`&text[a..b]`; the sources never slice at a non-boundary offset. -/
def byteSliceGo : List Char → Nat → Nat → List Char
  | [], _, _ => []
  | c :: cs, a, b =>
    (if a = 0 ∧ c.utf8Size ≤ b then [c] else []) ++
      byteSliceGo cs (a - c.utf8Size) (b - c.utf8Size)

/-- `&text[a..b]` for byte offsets `a`, `b`. -/
def byteSlice (t : List Char) (a b : Nat) : List Char := byteSliceGo t a b

/-- `QuantifierType` from `src/regex/pattern.rs`. -/
inductive QuantifierType where
  | ZeroOrMore
  | OneOrMore
  | ZeroOrOne
deriving DecidableEq, Repr

/-- `PatternElement` from `src/regex/pattern.rs`. -/
inductive PatternElement where
  | Literal (c : Char)
  | AnyChar
  | Digit (negate : Bool)
  | Word (negate : Bool)
  | Whitespace (negate : Bool)
  | StartAnchor
  | EndAnchor
  | Quantifier (inner : PatternElement) (q : QuantifierType)
deriving DecidableEq, Repr

/-- `PatternError` from `src/regex/pattern.rs` (messages shortened to
English; the source carries French strings). -/
inductive PatternError where
  | InvalidPattern (msg : String)
  | Other (msg : String)
deriving DecidableEq, Repr

/-- `SimplePattern`: the compiled element list plus the source pattern. -/
structure SimplePattern where
  elements : List PatternElement
  pattern : List Char
deriving DecidableEq, Repr

/-- `Match`: matched text plus byte offsets.  The source field `end` is
renamed `endPos` (`end` is a Lean keyword). -/
structure Match where
  text : List Char
  start : Nat
  endPos : Nat
deriving DecidableEq, Repr

/-- The escape table of `SimplePattern::new`: `\d \D \w \W \s \S` become
classes, anything else becomes a literal of itself. -/
def escapeElem (e : Char) : PatternElement :=
  if e = 'd' then .Digit false
  else if e = 'D' then .Digit true
  else if e = 'w' then .Word false
  else if e = 'W' then .Word true
  else if e = 's' then .Whitespace false
  else if e = 'S' then .Whitespace true
  else .Literal e

/-- Quantifier kind selected by `* + ?` in `SimplePattern::new`. -/
def quantOf (c : Char) : QuantifierType :=
  if c = '*' then .ZeroOrMore else if c = '+' then .OneOrMore else .ZeroOrOne

/-- The character loop of `SimplePattern::new`.  `acc` is the element
list built so far, in reverse (the source pushes/pops at the back of a
vector; consing to a reversed list is the same discipline).  The returned
flag records whether a trailing `$` set the end-anchor. -/
def parseElems : List Char → List PatternElement →
    Except PatternError (List PatternElement × Bool)
  | [], acc => .ok (acc.reverse, false)
  | c :: rest, acc =>
    if c = '\\' then
      match rest with
      | [] => .error (.InvalidPattern "incomplete escape character")
      | e :: r => parseElems r (escapeElem e :: acc)
    else if c = '.' then parseElems rest (.AnyChar :: acc)
    else if c = '$' then
      if rest.isEmpty then .ok (acc.reverse, true)
      else parseElems rest (.Literal '$' :: acc)
    else if c = '*' ∨ c = '+' ∨ c = '?' then
      match acc with
      | [] => .error (.InvalidPattern "quantifier without preceding element")
      | last :: accRest => parseElems rest (.Quantifier last (quantOf c) :: accRest)
    else parseElems rest (.Literal c :: acc)

/-- `SimplePattern::new`: peel a leading `^`, run the main loop, then
re-insert the anchor sentinels at the ends of the element list. -/
def SimplePattern.new (pattern : List Char) : Except PatternError SimplePattern :=
  let peeled : Bool × List Char :=
    match pattern with
    | [] => (false, [])
    | c :: r => if c = '^' then (true, r) else (false, c :: r)
  match parseElems peeled.2 [] with
  | .error e => .error e
  | .ok (elems, isEnd) =>
    .ok ⟨(if peeled.1 then [PatternElement.StartAnchor] else []) ++ elems ++
          (if isEnd then [PatternElement.EndAnchor] else []), pattern⟩

/-- `SimplePattern::matches_element`.  The `Quantifier` arm panics in the
source ("quantifiers cannot be tested directly"); the panic is `none`.
Rust's `char::is_alphanumeric`/`is_whitespace` are Unicode-aware; they are
modelled with the ASCII `Char.isAlphanum`/`Char.isWhitespace`, which agree
on every character these claims evaluate. -/
def matches_element : PatternElement → Char → Option Bool
  | .Literal expected, c => some (decide (c = expected))
  | .AnyChar, _ => some true
  | .Digit negate, c => some (if negate then !c.isDigit else c.isDigit)
  | .Word negate, c =>
    some (if negate then !(c.isAlphanum || c = '_') else (c.isAlphanum || c = '_'))
  | .Whitespace negate, c =>
    some (if negate then !c.isWhitespace else c.isWhitespace)
  | .StartAnchor, _ => some false
  | .EndAnchor, _ => some false
  | .Quantifier _ _, _ => none

/-- The greedy consumption loop shared by `*` and `+` in
`SimplePattern::find_from`: advance while the current character satisfies
the inner element.  It walks the remaining suffix of the text (the
characters from the current position on) while counting the absolute
character position. -/
def greedyGo (inner : PatternElement) : List Char → Nat → Except Unit Nat
  | [], pos => .ok pos
  | c :: rest, pos =>
    match matches_element inner c with
    | none => .error ()
    | some true => greedyGo inner rest (pos + 1)
    | some false => .ok pos

/-- Greedy run starting at character position `pos` of `t`. -/
def greedyRun (inner : PatternElement) (t : List Char) (pos : Nat) : Except Unit Nat :=
  greedyGo inner (t.drop pos) pos

/-- The body of a non-quantifier element in the matcher loop
(`SimplePattern::find_from`): fail (`.ok none` = the source's early
`return None`) when the text is exhausted or the character does not match,
else advance one position. -/
def literalStep (e : PatternElement) (t : List Char) (pos : Nat) :
    Except Unit (Option Nat) :=
  match t.get? pos with
  | some c =>
    match matches_element e c with
    | none => .error ()
    | some true => .ok (some (pos + 1))
    | some false => .ok none
  | none => .ok none

/-- The `ZeroOrOne` branch: consume one character when it matches, else
stay put; never fails (but panics when the inner element is itself a
quantifier). -/
def zeroOrOneStep (inner : PatternElement) (t : List Char) (pos : Nat) :
    Except Unit Nat :=
  match t.get? pos with
  | some c =>
    match matches_element inner c with
    | none => .error ()
    | some true => .ok (pos + 1)
    | some false => .ok pos
  | none => .ok pos

/-- The `while elem_pos < len && current_pos <= text_chars.len()` loop of
`SimplePattern::find_from`, one pattern element at a time.  Returns the
final character position on success, `.ok none` when an element fails to
match (the source's early `return None`), `.error ()` on panic. -/
def consumeLoop : List PatternElement → List Char → Nat → Except Unit (Option Nat)
  | [], _, pos => .ok (some pos)
  | e :: rest, t, pos =>
    if t.length < pos then
      -- loop guard `current_pos <= text_chars.len()` fails: exit the loop
      -- with the remaining elements unconsumed (the source then falls
      -- through to the end-anchor check).
      .ok (some pos)
    else
      match e with
      | .Quantifier inner q =>
        match q with
        | .ZeroOrMore =>
          match greedyRun inner t pos with
          | .error er => .error er
          | .ok pos2 => consumeLoop rest t pos2
        | .OneOrMore =>
          match greedyRun inner t pos with
          | .error er => .error er
          | .ok pos2 => if pos2 = pos then .ok none else consumeLoop rest t pos2
        | .ZeroOrOne =>
          match zeroOrOneStep inner t pos with
          | .error er => .error er
          | .ok pos2 => consumeLoop rest t pos2
      | _ =>
        match literalStep e t pos with
        | .error er => .error er
        | .ok none => .ok none
        | .ok (some pos2) => consumeLoop rest t pos2

/-- The element slice actually interpreted by `find_from`: the original
list with a leading `StartAnchor` and a trailing `EndAnchor` stripped. -/
def SimplePattern.strippedElements (p : SimplePattern) : List PatternElement :=
  let e1 := if p.elements.head? = some PatternElement.StartAnchor
    then p.elements.drop 1 else p.elements
  if p.elements.getLast? = some PatternElement.EndAnchor then e1.dropLast else e1

/-- Construction of the returned `Match` at the end of `find_from`:
translate the character positions back to byte offsets with
`char_indices().nth(..)` (defaulting to `0` for the start and to the byte
length for the end) and slice the original text at those offsets. -/
def mkMatch (t : List Char) (matchStart cur : Nat) : Match :=
  let actualStart := (charIndicesNth t matchStart).getD 0
  let actualEnd := if t.length ≤ cur then byteLen t
    else (charIndicesNth t cur).getD (byteLen t)
  ⟨byteSlice t actualStart actualEnd, actualStart, actualEnd⟩

/-- `SimplePattern::find_from`: start-anchor pre-check, element loop,
end-anchor post-check, then `Match` construction.  `startPos` is a
character index (the callers pass byte-derived numbers; the mismatch is
the source's).  `text_chars[current_pos - 1]` is an indexing operation
that panics when out of bounds, hence the `.error ()` arm. -/
def SimplePattern.find_from (p : SimplePattern) (t : List Char) (startPos : Nat) :
    Except Unit (Option Match) :=
  if p.elements.head? = some PatternElement.StartAnchor ∧ 0 < startPos ∧
      (t.length ≤ startPos ∨ ¬ t.get? (startPos - 1) = some '\n') then
    .ok none
  else
    match consumeLoop p.strippedElements t startPos with
    | .error er => .error er
    | .ok none => .ok none
    | .ok (some cur) =>
      if p.elements.getLast? = some PatternElement.EndAnchor ∧ ¬ cur = t.length ∧
          0 < cur then
        match t.get? (cur - 1) with
        | none => .error ()
        | some ch =>
          if ch = '\n' then .ok (some (mkMatch t startPos cur)) else .ok none
      else .ok (some (mkMatch t startPos cur))

/-- The `for start in 0..text.len()` scan of `SimplePattern::find`,
specialised to the list of start offsets it enumerates. -/
def findScan (p : SimplePattern) (t : List Char) : List Nat → Except Unit (Option Match)
  | [] => .ok none
  | s :: rest =>
    match p.find_from t s with
    | .error er => .error er
    | .ok (some m) => .ok (some m)
    | .ok none => findScan p t rest

/-- `SimplePattern::find`: start-anchored patterns are only tried at
offset 0; otherwise every offset in `0..text.len()` (a BYTE range) is
tried in order. -/
def SimplePattern.find (p : SimplePattern) (t : List Char) : Except Unit (Option Match) :=
  if p.elements.head? = some PatternElement.StartAnchor then p.find_from t 0
  else findScan p t (List.range (byteLen t))

/-- `SimplePattern::is_match`. -/
def SimplePattern.is_match (p : SimplePattern) (t : List Char) : Except Unit Bool :=
  (p.find t).map Option.isSome

/-- The `while start_pos <= text.len()` loop of `SimplePattern::find_all`
with explicit fuel; `.ok none` means the fuel ran out (the source loop
does not terminate on some inputs).  After a success the cursor moves to
the match's end byte offset, or one past its start when the match was
empty. -/
def SimplePattern.find_all_loop (p : SimplePattern) (t : List Char) :
    Nat → Nat → Except Unit (Option (List Match))
  | 0, _ => .ok none
  | fuel + 1, startPos =>
    if startPos ≤ byteLen t then
      match p.find_from t startPos with
      | .error er => .error er
      | .ok (some m) =>
        match p.find_all_loop t fuel (if m.start < m.endPos then m.endPos else m.start + 1) with
        | .error er => .error er
        | .ok none => .ok none
        | .ok (some l) => .ok (some (m :: l))
      | .ok none => p.find_all_loop t fuel (startPos + 1)
    else .ok (some [])

/-- `SimplePattern::find_all`. -/
def SimplePattern.find_all (p : SimplePattern) (t : List Char) (fuel : Nat) :
    Except Unit (Option (List Match)) :=
  p.find_all_loop t fuel 0

/-- The replacement builder of `SimplePattern::replace_all`, applied to an
already-computed match list. -/
def replaceGo (t replacement : List Char) : Nat → List Match → List Char
  | le, [] => byteSlice t le (byteLen t)
  | le, m :: ms => byteSlice t le m.start ++ replacement ++ replaceGo t replacement m.endPos ms

/-- `SimplePattern::replace_all` on a match list. -/
def replaceAllList (t : List Char) (ms : List Match) (replacement : List Char) :
    List Char :=
  if ms.isEmpty then t else replaceGo t replacement 0 ms

/-- `SimplePattern::replace_all`. -/
def SimplePattern.replace_all (p : SimplePattern) (t replacement : List Char) (fuel : Nat) :
    Except Unit (Option (List Char)) :=
  (p.find_all t fuel).map (Option.map (fun ms => replaceAllList t ms replacement))

/-- The segment loop of `SimplePattern::split`: for each match, emit the
text since the previous match's end when the match starts strictly later,
emit an empty leading segment when `last_end` is still `0`, and emit
nothing otherwise; after the loop emit the remainder (or an empty trailing
segment). -/
def splitGo (t : List Char) : Nat → List Match → List (List Char)
  | le, [] => if le < byteLen t then [byteSlice t le (byteLen t)] else [[]]
  | le, m :: ms =>
    (if le < m.start then [byteSlice t le m.start]
     else if le = 0 then [[]] else []) ++ splitGo t m.endPos ms

/-- `SimplePattern::split` on a match list: an empty match list yields the
whole text as the single segment. -/
def splitList (t : List Char) (ms : List Match) : List (List Char) :=
  if ms.isEmpty then [t] else splitGo t 0 ms

/-- `SimplePattern::split`. -/
def SimplePattern.split (p : SimplePattern) (t : List Char) (fuel : Nat) :
    Except Unit (Option (List (List Char))) :=
  (p.find_all t fuel).map (Option.map (splitList t))

end DrGrep

namespace DrGrep

/-- `Component` from `src/glob.rs`.  The `HashSet<char>` of a character
class is modelled as the list of inserted characters (only membership is
ever consulted). -/
inductive Component where
  | Literal (s : List Char)
  | SingleWildcard
  | MultiWildcard
  | CharacterClass (chars : List Char) (negated : Bool)
deriving DecidableEq, Repr

/-- Whether a component is a `MultiWildcard` (the `matches!` test of the
text-exhausted branch). -/
def Component.isMultiWildcard : Component → Bool
  | .MultiWildcard => true
  | _ => false

/-- The inclusive character range `start..=end_` inserted by a class range
such as `a-z`; a reversed range produces the empty set, as in Rust. -/
def charRangeList (startC endC : Char) : List Char :=
  (List.range (endC.toNat + 1 - startC.toNat)).map (fun k => Char.ofNat (startC.toNat + k))

/-- The scanning loop of `GlobPattern::parse_character_class`, on the
characters after the (optional) `!`.  Stops before a `]`, or at the end of
input for an unterminated class; when the next character is `-` and a
third character exists, an `x-y` triple inserts the whole range and
consumes three characters. -/
def parseClassGo : List Char → List Char → List Char × List Char
  | [], acc => (acc, [])
  | c :: rest, acc =>
    if c = ']' then (acc, c :: rest)
    else
      match rest with
      | r1 :: r2 :: r =>
        if r1 = '-' then parseClassGo r (acc ++ charRangeList c r2)
        else parseClassGo (r1 :: r2 :: r) (acc ++ [c])
      | short => parseClassGo short (acc ++ [c])

/-- The `if i < chars.len() { i += 1 }` step that skips the closing `]`
after the class scan (the scan stops with the `]`, when present, at the
head of the remaining input). -/
def skipClose : List Char → List Char
  | [] => []
  | c :: r => if c = ']' then r else c :: r

/-- The leading `!` negation peel of `parse_character_class`. -/
def peelNeg : List Char → Bool × List Char
  | [] => (false, [])
  | c :: r => if c = '!' then (true, r) else (false, c :: r)

/-- `GlobPattern::parse_character_class`, applied to the characters after
the opening `[`.  Returns the component and the remaining input after the
(optional) closing `]`. -/
def parse_character_class (l : List Char) : Component × List Char :=
  let peeled := peelNeg l
  let scanned := parseClassGo peeled.2 []
  (.CharacterClass scanned.1 peeled.1, skipClose scanned.2)

/-- `parseClassGo` only ever drops characters from its input. -/
theorem parseClassGo_length : ∀ (l acc : List Char), (parseClassGo l acc).2.length ≤ l.length
  | [], _ => Nat.le_refl _
  | c :: rest, acc => by
    rw [parseClassGo.eq_def]
    by_cases hc : c = ']'
    · simp [hc]
    · simp only [if_neg hc]
      rcases rest with _ | ⟨r1, _ | ⟨r2, r⟩⟩
      · simpa using Nat.le_succ_of_le (parseClassGo_length [] (acc ++ [c]))
      · simpa using Nat.le_succ_of_le (parseClassGo_length [r1] (acc ++ [c]))
      · by_cases hr : r1 = '-'
        · have h := parseClassGo_length r (acc ++ charRangeList c r2)
          simp only [if_pos hr, List.length_cons]
          omega
        · have h := parseClassGo_length (r1 :: r2 :: r) (acc ++ [c])
          simp only [if_neg hr, List.length_cons] at h ⊢
          omega

/-- `skipClose` only ever drops characters. -/
theorem skipClose_length : ∀ l : List Char, (skipClose l).length ≤ l.length
  | [] => Nat.le_refl _
  | c :: r => by
    by_cases hc : c = ']' <;> simp [skipClose, hc]

/-- `peelNeg` only ever drops characters. -/
theorem peelNeg_length : ∀ l : List Char, (peelNeg l).2.length ≤ l.length
  | [] => Nat.le_refl _
  | c :: r => by
    by_cases hc : c = '!' <;> simp [peelNeg, hc]

/-- `parse_character_class` only ever drops characters from its input. -/
theorem parse_character_class_length (l : List Char) :
    (parse_character_class l).2.length ≤ l.length := by
  have h1 := peelNeg_length l
  have h2 := parseClassGo_length (peelNeg l).2 []
  have h3 := skipClose_length (parseClassGo (peelNeg l).2 []).2
  simp only [parse_character_class]
  omega

/-- The tokenizing loop of `GlobPattern::parse` (the no-alternatives
path): `*`/`?`/`[` flush the pending literal run and emit a wildcard or
class component, `\` escapes the next character into the run (a trailing
`\` stands for itself), everything else extends the run. -/
def parseComponentsGo : List Char → List Char → List Component
  | [], cur => if cur.isEmpty then [] else [.Literal cur]
  | c :: rest, cur =>
    if c = '*' then
      (if cur.isEmpty then [] else [.Literal cur]) ++
        Component.MultiWildcard :: parseComponentsGo rest []
    else if c = '?' then
      (if cur.isEmpty then [] else [.Literal cur]) ++
        Component.SingleWildcard :: parseComponentsGo rest []
    else if c = '[' then
      (if cur.isEmpty then [] else [.Literal cur]) ++
        (parse_character_class rest).1 :: parseComponentsGo (parse_character_class rest).2 []
    else if c = '\\' then
      match rest with
      | [] => parseComponentsGo [] (cur ++ ['\\'])
      | e :: r => parseComponentsGo r (cur ++ [e])
    else parseComponentsGo rest (cur ++ [c])
termination_by l _ => l.length
decreasing_by
  all_goals simp_wf
  all_goals try omega
  all_goals (have hlen := parse_character_class_length rest; omega)

/-- The `,`-splitting loop of `GlobPattern::split_respecting_braces`:
commas split only at brace depth 0; braces are copied and tracked (the
source counter is an `i32`, hence `Int`). -/
def splitRespectingGo : List Char → Int → List Char → List (List Char)
  | [], _, current => if current.isEmpty then [] else [current]
  | c :: rest, depth, current =>
    if c = '{' then splitRespectingGo rest (depth + 1) (current ++ ['{'])
    else if c = '}' then splitRespectingGo rest (depth - 1) (current ++ ['}'])
    else if c = ',' ∧ depth = 0 then current :: splitRespectingGo rest depth []
    else splitRespectingGo rest depth (current ++ [c])

/-- `GlobPattern::split_respecting_braces`. -/
def split_respecting_braces (s : List Char) : List (List Char) :=
  splitRespectingGo s 0 []

/-- The matching-brace scan of `GlobPattern::expand_alternatives`, on the
characters after the opening `{` (count starts at 1): returns the index,
relative to that suffix, of the brace that closes the group, or `none`
when the braces never balance. -/
def findCloseRel : List Char → Nat → Nat → Option Nat
  | [], _, _ => none
  | c :: rest, count, j =>
    if c = '{' then findCloseRel rest (count + 1) (j + 1)
    else if c = '}' then
      (if count = 1 then some j else findCloseRel rest (count - 1) (j + 1))
    else findCloseRel rest count (j + 1)

/-- Rust byte slicing `&s[a..]` over a character list: drop the first `a`
BYTES.  `none` models the slice panic: `a` beyond the byte length, or
falling strictly inside a multi-byte character (not a char boundary). -/
def byteDropAt : List Char → Nat → Option (List Char)
  | t, 0 => some t
  | [], _ + 1 => none
  | c :: cs, a + 1 =>
    if a + 1 < c.utf8Size then none else byteDropAt cs (a + 1 - c.utf8Size)

/-- The first `n` BYTES of a character list; `none` models the slice panic
when `n` overruns the byte length or splits a character. -/
def byteTakeAt : List Char → Nat → Option (List Char)
  | _, 0 => some []
  | [], _ + 1 => none
  | c :: cs, n + 1 =>
    if n + 1 < c.utf8Size then none
    else (byteTakeAt cs (n + 1 - c.utf8Size)).map (fun r => c :: r)

/-- Rust byte slicing `&s[a..b]`: the bytes from `a` (inclusive) to `b`
(exclusive).  `none` models the slice panic: `a > b`, a bound beyond the
byte length, or a bound inside a multi-byte character. -/
def byteSliceAt (t : List Char) (a b : Nat) : Option (List Char) :=
  if b < a then none
  else (byteDropAt t a).bind (fun r => byteTakeAt r (b - a))

/-- The per-option loop of `GlobPattern::expand_alternatives`: each option
is re-expanded as `prefix ++ option ++ suffix` and the expansions are
concatenated in option order.  `expandF` is the recursive re-expansion
(one fuel step down); a panic in a re-expansion (`.error`) aborts the
loop, as in the source. -/
def joinOptions (expandF : List Char → Option (Except Unit (List (List Char))))
    (pre suffix : List Char) : List (List Char) → Option (Except Unit (List (List Char)))
  | [] => some (.ok [])
  | o :: os =>
    match expandF (pre ++ o ++ suffix) with
    | none => none
    | some (.error e) => some (.error e)
    | some (.ok exp) =>
      match joinOptions expandF pre suffix os with
      | none => none
      | some (.error e) => some (.error e)
      | some (.ok more) => some (.ok (exp ++ more))

/-- The character walk of `GlobPattern::expand_alternatives`: copy
characters (resolving escapes) into `current` until a `{` with a matching
`}` is found.  The group body and the suffix are then cut out of the
ORIGINAL string with BYTE slices whose bounds are the CHARACTER indices of
the braces (`&pattern[start_pos + 1..end_pos]` and
`&pattern[end_pos + 1..]` in the source), so on a pattern with multi-byte
characters before the closing brace a slice bound can fall inside a
character and the source panics — the `.error ()` results.  The group body
is split on top-level commas and each option is re-expanded as
`prefix ++ option ++ suffix`.  A `{` with no matching `}` is copied as a
literal.  Reaching the end of input with no group expanded yields the
accumulated literal as the single result.  The walk reads the suffix of
`pattern` starting at character index `i`. -/
def expandWalk (expandF : List Char → Option (Except Unit (List (List Char))))
    (pattern : List Char) :
    List Char → Nat → List Char → Option (Except Unit (List (List Char)))
  | [], _, current => some (.ok [current])
  | c :: rest, i, current =>
    if c = '{' then
      match findCloseRel rest 1 0 with
      | none => expandWalk expandF pattern rest (i + 1) (current ++ ['{'])
      | some relEnd =>
        match byteSliceAt pattern (i + 1) (i + 1 + relEnd) with
        | none => some (.error ())
        | some optionsStr =>
          match byteDropAt pattern (i + 1 + relEnd + 1) with
          | none => some (.error ())
          | some suffix =>
            joinOptions expandF current suffix (split_respecting_braces optionsStr)
    else if c = '\\' then
      match rest with
      | [] => expandWalk expandF pattern [] (i + 1) (current ++ ['\\'])
      | e :: r => expandWalk expandF pattern r (i + 2) (current ++ [e])
    else expandWalk expandF pattern rest (i + 1) (current ++ [c])

/-- `GlobPattern::expand_alternatives`, with fuel bounding the nesting of
re-expansions (the source recursion terminates whenever it does not panic,
because each re-expanded string is strictly shorter; `none` only means the
fuel was too small).  `.error ()` is the byte-slice panic. -/
def expand_alternatives : Nat → List Char → Option (Except Unit (List (List Char)))
  | 0, _ => none
  | fuel + 1, pattern => expandWalk (expand_alternatives fuel) pattern pattern 0 []

/-- `GlobPattern` from `src/glob.rs`. -/
structure GlobPattern where
  pattern : List Char
  components : List Component
  expandedPatterns : List (List Char)
deriving DecidableEq, Repr

/-- `GlobPattern::parse`: a pattern containing both `{` and `}` is brace
expanded (components stay empty); otherwise it is tokenized into
components (no alternatives).  `.error ()` is the byte-slice panic of the
expansion. -/
def GlobPattern.parse (ef : Nat) (pattern : List Char) :
    Option (Except Unit (List Component × List (List Char))) :=
  if '{' ∈ pattern ∧ '}' ∈ pattern then
    match expand_alternatives ef pattern with
    | none => none
    | some (.error e) => some (.error e)
    | some (.ok e) => some (.ok ([], e))
  else some (.ok (parseComponentsGo pattern [], []))

/-- `GlobPattern::new` (fuelled only through brace expansion; `.error ()`
is the byte-slice panic of the expansion — the source function has no
error return of its own). -/
def GlobPattern.new (ef : Nat) (pattern : List Char) : Option (Except Unit GlobPattern) :=
  (GlobPattern.parse ef pattern).map (Except.map (fun ce => ⟨pattern, ce.1, ce.2⟩))

/-- `GlobPattern::matches_from_position`, with the component slice and the
text represented by their remaining suffixes (the source indices only ever
advance, and the text index never exceeds the text length).  Matches the
source case for case: exhausted components succeed only on exhausted text;
exhausted text walks multi-wildcards and then requires every remaining
component to be a `MultiWildcard`; a literal is compared character by
character; `*` first tries to match nothing, then consumes one character
and retries. -/
def matches_from_position : List Component → List Char → Bool
  | [], ts => ts.isEmpty
  | c :: rest, [] =>
    match c with
    | .MultiWildcard => matches_from_position rest []
    | _ => (c :: rest).all Component.isMultiWildcard
  | c :: rest, tc :: ttail =>
    match c with
    | .Literal lit =>
      if (tc :: ttail).length < lit.length then false
      else if (tc :: ttail).take lit.length = lit then
        matches_from_position rest ((tc :: ttail).drop lit.length)
      else false
    | .SingleWildcard => matches_from_position rest ttail
    | .MultiWildcard =>
      matches_from_position rest (tc :: ttail) ||
        matches_from_position (c :: rest) ttail
    | .CharacterClass chars negated =>
      if (chars.contains tc != negated) then matches_from_position rest ttail
      else false
termination_by comps ts => (comps.length, ts.length)

/-- The alternative scan of `GlobPattern::matches`: each expanded pattern
is compiled with `GlobPattern::new` and matched, short-circuiting on the
first success.  Fuel bounds the nesting of alternative re-expansion;
`.error ()` is the byte-slice panic of a re-compilation. -/
def matchesList : Nat → List (List Char) → List Char → Option (Except Unit Bool)
  | 0, _, _ => none
  | _ + 1, [], _ => some (.ok false)
  | fuel + 1, pat :: rest, t =>
    match GlobPattern.new fuel pat with
    | none => none
    | some (.error e) => some (.error e)
    | some (.ok g2) =>
      if g2.expandedPatterns.isEmpty then
        if matches_from_position g2.components t then some (.ok true)
        else matchesList fuel rest t
      else
        match matchesList fuel g2.expandedPatterns t with
        | none => none
        | some (.error e) => some (.error e)
        | some (.ok true) => some (.ok true)
        | some (.ok false) => matchesList fuel rest t

/-- `GlobPattern::matches`: dispatch between the expanded-alternatives
path (where re-compiling an alternative can hit the byte-slice panic,
`.error ()`) and the direct component matcher (which cannot). -/
def GlobPattern.matchesText (fuel : Nat) (g : GlobPattern) (t : List Char) :
    Option (Except Unit Bool) :=
  if g.expandedPatterns.isEmpty then some (.ok (matches_from_position g.components t))
  else matchesList fuel g.expandedPatterns t

/-- Abstract file system against which the glob walker runs: which paths
are directories, and the entries a directory read yields (a failed
`read_dir`, or a failed entry resolution inside it, is the `.error`
case).  Paths are path strings, as the walker compares them. -/
structure FileSystem where
  isDir : List Char → Bool
  readDir : List Char → Except Unit (List (List Char))

/-- How a `find_files` run ends abnormally: an I/O error returned as `Err`
(a failed `read_dir`, or a failed entry inside one), or a Rust panic (the
byte-slice panic of `expand_alternatives`, reached when an expanded
alternative is re-compiled).  The source conflates neither: the first is a
return value, the second unwinds. -/
inductive GlobErr where
  | ioError : GlobErr
  | panicked : GlobErr
deriving DecidableEq, Repr

/-- The entry loop of `GlobPattern::find_files_recursive`: for each entry
in directory-read order, the entry is kept when its path string matches
the pattern (a byte-slice panic inside the matcher unwinds the whole
walk), then the walker recurses into it when it is a directory (`recurse`
is the walker one fuel step down); an error anywhere aborts the whole
walk. -/
def entryLoop (fs : FileSystem) (g : GlobPattern) (mf : Nat)
    (recurse : List Char → Option (Except GlobErr (List (List Char)))) :
    List (List Char) → Option (Except GlobErr (List (List Char)))
  | [] => some (.ok [])
  | path :: rest =>
    match GlobPattern.matchesText mf g path with
    | none => none
    | some (.error _) => some (.error .panicked)
    | some (.ok hitB) =>
      let hit : List (List Char) := if hitB then [path] else []
      match (if fs.isDir path then recurse path else some (.ok [])) with
      | none => none
      | some (.error e) => some (.error e)
      | some (.ok subs) =>
        match entryLoop fs g mf recurse rest with
        | none => none
        | some (.error e) => some (.error e)
        | some (.ok more) => some (.ok (hit ++ subs ++ more))

/-- `GlobPattern::find_files_recursive`: a base path that is not a
directory yields `Ok` with no results; a directory is read (propagating
the I/O error, if any) and its entries are processed in order.  Fuel
bounds the directory nesting depth; `none` means the fuel was too
small. -/
def GlobPattern.find_files_recursive (fs : FileSystem) (g : GlobPattern) (mf : Nat) :
    Nat → List Char → Option (Except GlobErr (List (List Char)))
  | 0, _ => none
  | fuel + 1, dir =>
    if fs.isDir dir then
      match fs.readDir dir with
      | .error _ => some (.error .ioError)
      | .ok entries =>
        entryLoop fs g mf (fun d => GlobPattern.find_files_recursive fs g mf fuel d) entries
    else some (.ok [])

/-- The per-alternative loop of `GlobPattern::find_files`: each expanded
pattern is RE-COMPILED with `GlobPattern::new` — before any look at the
base directory, so a byte-slice panic in that re-compilation unwinds the
call even when the base is missing — and searched, and its files are
appended to the accumulated result, skipping paths already present
(`findFilesF` is the whole search one fuel step down). -/
def altFilesLoop (findFilesF : GlobPattern → Option (Except GlobErr (List (List Char))))
    (ef : Nat) : List (List Char) → List (List Char) → Option (Except GlobErr (List (List Char)))
  | [], acc => some (.ok acc)
  | pat :: rest, acc =>
    match GlobPattern.new ef pat with
    | none => none
    | some (.error _) => some (.error .panicked)
    | some (.ok g2) =>
      match findFilesF g2 with
      | none => none
      | some (.error e) => some (.error e)
      | some (.ok files) =>
        altFilesLoop findFilesF ef rest
          (files.foldl (fun a f => if a.contains f then a else a ++ [f]) acc)

/-- `GlobPattern::find_files`: with expanded alternatives, search with
each alternative in order, de-duplicating by path; otherwise run the
recursive walker on the base directory.  `mf` is the fuel handed to the
glob matcher, the outer fuel bounds both alternative nesting and
directory depth. -/
def GlobPattern.find_files (fs : FileSystem) (mf : Nat) :
    Nat → GlobPattern → List Char → Option (Except GlobErr (List (List Char)))
  | 0, _, _ => none
  | fuel + 1, g, base =>
    if g.expandedPatterns.isEmpty then
      GlobPattern.find_files_recursive fs g mf (fuel + 1) base
    else
      altFilesLoop (fun g2 => GlobPattern.find_files fs mf fuel g2 base) fuel
        g.expandedPatterns []

/-! ### Byte-offset arithmetic -/

theorem byteLen_nil : byteLen [] = 0 := rfl

theorem byteLen_cons (c : Char) (cs : List Char) :
    byteLen (c :: cs) = c.utf8Size + byteLen cs := by
  simp [byteLen]

theorem length_le_byteLen (t : List Char) : t.length ≤ byteLen t := by
  induction t with
  | nil => simp [byteLen_nil]
  | cons c cs ih =>
    have := Char.utf8Size_pos c
    simp only [List.length_cons, byteLen_cons]
    omega

theorem byteIdxOf_zero (t : List Char) : byteIdxOf t 0 = 0 := rfl

theorem byteIdxOf_nil (k : Nat) : byteIdxOf [] k = 0 := by
  simp [byteIdxOf, byteLen]

theorem byteIdxOf_cons_succ (c : Char) (cs : List Char) (k : Nat) :
    byteIdxOf (c :: cs) (k + 1) = c.utf8Size + byteIdxOf cs k := by
  simp [byteIdxOf, byteLen_cons]

theorem byteIdxOf_mono (t : List Char) {i j : Nat} (h : i ≤ j) :
    byteIdxOf t i ≤ byteIdxOf t j := by
  induction t generalizing i j with
  | nil => simp [byteIdxOf_nil]
  | cons c cs ih =>
    rcases i with _ | i
    · simp [byteIdxOf_zero]
    · rcases j with _ | j
      · omega
      · rw [byteIdxOf_cons_succ, byteIdxOf_cons_succ]
        exact Nat.add_le_add_left (ih (Nat.le_of_succ_le_succ h)) _

theorem byteIdxOf_length (t : List Char) : byteIdxOf t t.length = byteLen t := by
  simp [byteIdxOf]

theorem byteIdxOf_of_length_le (t : List Char) {k : Nat} (h : t.length ≤ k) :
    byteIdxOf t k = byteLen t := by
  simp [byteIdxOf, List.take_of_length_le h]

theorem byteIdxOf_le_byteLen (t : List Char) (k : Nat) : byteIdxOf t k ≤ byteLen t := by
  rcases Nat.le_total k t.length with h | h
  · simpa [byteIdxOf_length] using byteIdxOf_mono t h
  · simp [byteIdxOf_of_length_le t h]

theorem self_le_byteIdxOf (t : List Char) {k : Nat} (h : k ≤ t.length) :
    k ≤ byteIdxOf t k := by
  induction t generalizing k with
  | nil => simp_all
  | cons c cs ih =>
    rcases k with _ | k
    · simp
    · rw [byteIdxOf_cons_succ]
      have := Char.utf8Size_pos c
      have h2 := ih (show k ≤ cs.length by simpa using Nat.le_of_succ_le_succ h)
      omega

theorem byteIdxOf_strict (t : List Char) {i j : Nat} (hij : i < j) (hj : j ≤ t.length) :
    byteIdxOf t i < byteIdxOf t j := by
  induction t generalizing i j with
  | nil => simp at hj; omega
  | cons c cs ih =>
    rcases j with _ | j
    · omega
    · rcases i with _ | i
      · rw [byteIdxOf_zero, byteIdxOf_cons_succ]
        have := Char.utf8Size_pos c
        omega
      · rw [byteIdxOf_cons_succ, byteIdxOf_cons_succ]
        exact Nat.add_lt_add_left
          (ih (Nat.lt_of_succ_lt_succ hij) (by simpa using Nat.le_of_succ_le_succ hj)) _

theorem byteSliceGo_b_zero : ∀ (l : List Char) (a : Nat), byteSliceGo l a 0 = []
  | [], _ => rfl
  | c :: cs, a => by
    have := Char.utf8Size_pos c
    simp only [byteSliceGo]
    rw [if_neg (by omega)]
    simpa using byteSliceGo_b_zero cs (a - c.utf8Size)

/-- On char-boundary offsets, byte slicing is drop-then-take on the
character sequence. -/
theorem byteSlice_boundary (t : List Char) :
    ∀ (i j : Nat), byteSlice t (byteIdxOf t i) (byteIdxOf t j) = (t.take j).drop i := by
  induction t with
  | nil => intro i j; simp [byteSlice, byteSliceGo, byteIdxOf_nil]
  | cons c cs ih =>
    intro i j
    rcases j with _ | j
    · simp [byteSlice, byteIdxOf_zero, byteSliceGo_b_zero]
    · rcases i with _ | i
      · rw [byteIdxOf_zero, byteIdxOf_cons_succ]
        simp only [byteSlice, byteSliceGo]
        rw [if_pos ⟨trivial, by omega⟩]
        have h0 : 0 - c.utf8Size = 0 := by omega
        have heq : c.utf8Size + byteIdxOf cs j - c.utf8Size = byteIdxOf cs j := by omega
        rw [h0, heq]
        have := ih 0 j
        simp only [byteSlice, byteIdxOf_zero] at this
        simp [this]
      · rw [byteIdxOf_cons_succ, byteIdxOf_cons_succ]
        simp only [byteSlice, byteSliceGo]
        have hs := Char.utf8Size_pos c
        rw [if_neg (by omega)]
        have h1 : c.utf8Size + byteIdxOf cs i - c.utf8Size = byteIdxOf cs i := by omega
        have h2 : c.utf8Size + byteIdxOf cs j - c.utf8Size = byteIdxOf cs j := by omega
        rw [h1, h2]
        have := ih i j
        simp only [byteSlice] at this
        simp [this]

theorem drop_take_drop {α : Type} : ∀ (l : List α) (i j : Nat), i ≤ j →
    (l.take j).drop i ++ l.drop j = l.drop i
  | [], i, j, _ => by simp
  | x :: l, 0, j, _ => by simp [List.take_append_drop]
  | x :: l, i + 1, j, h => by
    rcases j with _ | j
    · omega
    · simpa using drop_take_drop l i j (Nat.le_of_succ_le_succ h)

/-- Concatenation of adjacent boundary slices. -/
theorem take_drop_append (t : List Char) {i j k : Nat} (h1 : i ≤ j) (h2 : j ≤ k) :
    (t.take j).drop i ++ (t.take k).drop j = (t.take k).drop i := by
  have := drop_take_drop (t.take k) i j h1
  rwa [List.take_take, Nat.min_eq_left h2] at this



/-! ### Monotonicity of the matcher's position counters -/

theorem greedyGo_ge (inner : PatternElement) :
    ∀ (l : List Char) (pos r : Nat), greedyGo inner l pos = .ok r → pos ≤ r := by
  intro l
  induction l with
  | nil => intro pos r h; simp [greedyGo] at h; omega
  | cons c rest ih =>
    intro pos r h
    simp only [greedyGo] at h
    rcases hm : matches_element inner c with _ | b
    · simp only [hm] at h; cases h
    · simp only [hm] at h
      cases b
      · simp at h; omega
      · have := ih (pos + 1) r (by simpa using h)
        omega

theorem greedyGo_le (inner : PatternElement) :
    ∀ (l : List Char) (pos r : Nat), greedyGo inner l pos = .ok r → r ≤ pos + l.length := by
  intro l
  induction l with
  | nil => intro pos r h; simp [greedyGo] at h; omega
  | cons c rest ih =>
    intro pos r h
    simp only [greedyGo] at h
    rcases hm : matches_element inner c with _ | b
    · simp only [hm] at h; cases h
    · simp only [hm] at h
      cases b
      · simp at h; simp [List.length_cons]; omega
      · have := ih (pos + 1) r (by simpa using h)
        simp [List.length_cons]
        omega

theorem greedyRun_ge (inner : PatternElement) (t : List Char) (pos r : Nat)
    (h : greedyRun inner t pos = .ok r) : pos ≤ r :=
  greedyGo_ge inner (t.drop pos) pos r h

theorem greedyRun_le_max (inner : PatternElement) (t : List Char) (pos r : Nat)
    (h : greedyRun inner t pos = .ok r) : r ≤ max pos t.length := by
  have h1 := greedyGo_le inner (t.drop pos) pos r h
  have h2 : (t.drop pos).length = t.length - pos := by simp
  omega

theorem literalStep_some (e : PatternElement) (t : List Char) (pos pos2 : Nat)
    (h : literalStep e t pos = .ok (some pos2)) : pos2 = pos + 1 ∧ pos < t.length := by
  rcases hc : t.get? pos with _ | c
  · simp only [literalStep, hc] at h; cases h
  · have hlt : pos < t.length := by
      by_contra hge
      rw [List.get?_eq_none.mpr (Nat.le_of_not_lt hge)] at hc
      cases hc
    simp only [literalStep, hc] at h
    rcases hm : matches_element e c with _ | b
    · simp only [hm] at h; cases h
    · simp only [hm] at h
      cases b
      · simp at h
      · simp at h; omega

theorem zeroOrOneStep_bounds (inner : PatternElement) (t : List Char) (pos pos2 : Nat)
    (h : zeroOrOneStep inner t pos = .ok pos2) :
    pos ≤ pos2 ∧ pos2 ≤ max pos t.length := by
  rcases hc : t.get? pos with _ | c
  · simp only [zeroOrOneStep, hc] at h
    simp at h
    omega
  · have hlt : pos < t.length := by
      by_contra hge
      rw [List.get?_eq_none.mpr (Nat.le_of_not_lt hge)] at hc
      cases hc
    simp only [zeroOrOneStep, hc] at h
    rcases hm : matches_element inner c with _ | b
    · simp only [hm] at h; cases h
    · simp only [hm] at h
      cases b <;> simp at h <;> omega

/-- Dissection of the non-quantifier arm of `consumeLoop`: a successful
continuation went through a one-character advance at an in-bounds
position. -/
theorem nonquantArm_spec (E : PatternElement) (rest : List PatternElement) (t : List Char)
    (pos : Nat) (res : Except Unit (Option Nat))
    (h : (match literalStep E t pos with
          | .error er => (.error er : Except Unit (Option Nat))
          | .ok none => .ok none
          | .ok (some pos2) => consumeLoop rest t pos2) = res)
    (cur : Nat) (hres : res = .ok (some cur)) :
    pos < t.length ∧ consumeLoop rest t (pos + 1) = .ok (some cur) := by
  subst hres
  rcases hs : literalStep E t pos with er | op
  · simp only [hs] at h; cases h
  · simp only [hs] at h
    rcases op with _ | pos2
    · simp at h
    · obtain ⟨he, hlt⟩ := literalStep_some E t pos pos2 hs
      subst he
      exact ⟨hlt, h⟩

theorem consumeLoop_ge : ∀ (elems : List PatternElement) (t : List Char) (pos cur : Nat),
    consumeLoop elems t pos = .ok (some cur) → pos ≤ cur := by
  intro elems
  induction elems with
  | nil => intro t pos cur h; simp [consumeLoop] at h; omega
  | cons e rest ih =>
    intro t pos cur h
    rcases e with c | _ | neg | neg | neg | _ | _ | ⟨inner, q⟩
    case Quantifier =>
      simp only [consumeLoop] at h
      by_cases hg : t.length < pos
      · rw [if_pos hg] at h; simp at h; omega
      · rw [if_neg hg] at h
        rcases q with _ | _ | _
        · -- ZeroOrMore
          rcases hr : greedyRun inner t pos with er | pos2
          · simp only [hr] at h; cases h
          · simp only [hr] at h
            have h1 := greedyRun_ge inner t pos pos2 hr
            have h2 := ih t pos2 cur h
            omega
        · -- OneOrMore
          rcases hr : greedyRun inner t pos with er | pos2
          · simp only [hr] at h; cases h
          · simp only [hr] at h
            by_cases hp : pos2 = pos
            · rw [if_pos hp] at h; simp at h
            · rw [if_neg hp] at h
              have h1 := greedyRun_ge inner t pos pos2 hr
              have h2 := ih t pos2 cur h
              omega
        · -- ZeroOrOne
          rcases hr : zeroOrOneStep inner t pos with er | pos2
          · simp only [hr] at h; cases h
          · simp only [hr] at h
            have h1 := (zeroOrOneStep_bounds inner t pos pos2 hr).1
            have h2 := ih t pos2 cur h
            omega
    all_goals (
      simp only [consumeLoop] at h
      by_cases hg : t.length < pos
      · rw [if_pos hg] at h; simp at h; omega
      · rw [if_neg hg] at h
        have hh := nonquantArm_spec _ rest t pos _ h cur rfl
        have h2 := ih t (pos + 1) cur hh.2
        omega)

theorem consumeLoop_le_max : ∀ (elems : List PatternElement) (t : List Char) (pos cur : Nat),
    consumeLoop elems t pos = .ok (some cur) → cur ≤ max pos t.length := by
  intro elems
  induction elems with
  | nil => intro t pos cur h; simp [consumeLoop] at h; omega
  | cons e rest ih =>
    intro t pos cur h
    rcases e with c | _ | neg | neg | neg | _ | _ | ⟨inner, q⟩
    case Quantifier =>
      simp only [consumeLoop] at h
      by_cases hg : t.length < pos
      · rw [if_pos hg] at h; simp at h; omega
      · rw [if_neg hg] at h
        rcases q with _ | _ | _
        · -- ZeroOrMore
          rcases hr : greedyRun inner t pos with er | pos2
          · simp only [hr] at h; cases h
          · simp only [hr] at h
            have h1 := greedyRun_le_max inner t pos pos2 hr
            have h2 := ih t pos2 cur h
            omega
        · -- OneOrMore
          rcases hr : greedyRun inner t pos with er | pos2
          · simp only [hr] at h; cases h
          · simp only [hr] at h
            by_cases hp : pos2 = pos
            · rw [if_pos hp] at h; simp at h
            · rw [if_neg hp] at h
              have h1 := greedyRun_le_max inner t pos pos2 hr
              have h2 := ih t pos2 cur h
              omega
        · -- ZeroOrOne
          rcases hr : zeroOrOneStep inner t pos with er | pos2
          · simp only [hr] at h; cases h
          · simp only [hr] at h
            have h1 := (zeroOrOneStep_bounds inner t pos pos2 hr).2
            have h2 := ih t pos2 cur h
            omega
    all_goals (
      simp only [consumeLoop] at h
      by_cases hg : t.length < pos
      · rw [if_pos hg] at h; simp at h; omega
      · rw [if_neg hg] at h
        have hh := nonquantArm_spec _ rest t pos _ h cur rfl
        have h2 := ih t (pos + 1) cur hh.2
        have h3 := hh.1
        omega)

/-! ### Structure of the matches returned by `find_from` -/

/-- A well-formed match: its offsets are the byte offsets of a pair of
character indices of the text, and its text is the corresponding slice. -/
def MatchWF (t : List Char) (m : Match) : Prop :=
  ∃ i j, i ≤ j ∧ j ≤ t.length ∧ m.start = byteIdxOf t i ∧ m.endPos = byteIdxOf t j ∧
    m.text = (t.take j).drop i

theorem mkMatch_start_lt (t : List Char) (s cur : Nat) (h : s < t.length) :
    (mkMatch t s cur).start = byteIdxOf t s := by
  simp [mkMatch, charIndicesNth, h]

theorem mkMatch_start_ge (t : List Char) (s cur : Nat) (h : t.length ≤ s) :
    (mkMatch t s cur).start = 0 := by
  simp [mkMatch, charIndicesNth, Nat.not_lt.mpr h]

theorem mkMatch_end_ge (t : List Char) (s cur : Nat) (h : t.length ≤ cur) :
    (mkMatch t s cur).endPos = byteLen t := by
  simp [mkMatch, if_pos h]

theorem mkMatch_end_lt (t : List Char) (s cur : Nat) (h : cur < t.length) :
    (mkMatch t s cur).endPos = byteIdxOf t cur := by
  simp [mkMatch, Nat.not_le.mpr h, charIndicesNth, h]

theorem mkMatch_text (t : List Char) (s cur : Nat) :
    (mkMatch t s cur).text = byteSlice t (mkMatch t s cur).start (mkMatch t s cur).endPos :=
  rfl

theorem mkMatch_wf (t : List Char) (s cur : Nat) (hsc : s ≤ cur) :
    MatchWF t (mkMatch t s cur) := by
  have hstart : (mkMatch t s cur).start = byteIdxOf t (if s < t.length then s else 0) := by
    by_cases h1 : s < t.length
    · simp [h1, mkMatch_start_lt t s cur h1]
    · simp [h1, mkMatch_start_ge t s cur (Nat.le_of_not_lt h1), byteIdxOf_zero]
  have hend : (mkMatch t s cur).endPos =
      byteIdxOf t (if t.length ≤ cur then t.length else cur) := by
    by_cases h2 : t.length ≤ cur
    · simp [h2, mkMatch_end_ge t s cur h2, byteIdxOf_length]
    · simp [h2, mkMatch_end_lt t s cur (Nat.lt_of_not_le h2)]
  refine ⟨_, _, ?_, ?_, hstart, hend, ?_⟩
  · by_cases h1 : s < t.length <;> by_cases h2 : t.length ≤ cur <;>
      simp [h1, h2] <;> omega
  · by_cases h2 : t.length ≤ cur
    · simp [h2]
    · simp [h2]
      omega
  · rw [mkMatch_text, hstart, hend, byteSlice_boundary]

/-- Dissection of a successful `find_from`: the element loop finished at
some position `cur ≥ startPos`, the returned match is `mkMatch`, and the
start-anchor pre-check did not fire. -/
theorem find_from_some (p : SimplePattern) (t : List Char) (s : Nat) (m : Match)
    (h : p.find_from t s = .ok (some m)) :
    ∃ cur, consumeLoop p.strippedElements t s = .ok (some cur) ∧ m = mkMatch t s cur ∧
      ¬ (p.elements.head? = some PatternElement.StartAnchor ∧ 0 < s ∧
        (t.length ≤ s ∨ ¬ t.get? (s - 1) = some '\n')) := by
  by_cases hpre : p.elements.head? = some PatternElement.StartAnchor ∧ 0 < s ∧
      (t.length ≤ s ∨ ¬ t.get? (s - 1) = some '\n')
  · rw [SimplePattern.find_from, if_pos hpre] at h
    cases h
  · rw [SimplePattern.find_from, if_neg hpre] at h
    rcases hc : consumeLoop p.strippedElements t s with er | op
    · simp only [hc] at h; cases h
    · simp only [hc] at h
      rcases op with _ | cur
      · simp at h
      · dsimp only at h
        refine ⟨cur, rfl, ?_, hpre⟩
        by_cases hend : p.elements.getLast? = some PatternElement.EndAnchor ∧
            ¬ cur = t.length ∧ 0 < cur
        · rw [if_pos hend] at h
          rcases hg : t.get? (cur - 1) with _ | ch
          · simp only [hg] at h; cases h
          · simp only [hg] at h
            by_cases hch : ch = '\n'
            · rw [if_pos hch] at h
              injection h with h1
              injection h1 with h2
              exact h2.symm
            · rw [if_neg hch] at h; cases h
        · rw [if_neg hend] at h
          injection h with h1
          injection h1 with h2
          exact h2.symm

/-- With the start position beyond the character count, the element loop
exits immediately (its guard `current_pos <= text_chars.len()` fails). -/
theorem consumeLoop_gt : ∀ (elems : List PatternElement) (t : List Char) (pos : Nat),
    t.length < pos → consumeLoop elems t pos = .ok (some pos)
  | [], _, _, _ => rfl
  | _ :: _, _, _, hg => by
    rw [consumeLoop.eq_def]
    dsimp only
    rw [if_pos hg]

/-- A successful `find_from` at a position at or beyond the character
count produces the bogus whole-text match and cannot have come from a
start-anchored pattern (with positive position). -/
theorem find_from_large (p : SimplePattern) (t : List Char) (s : Nat) (m : Match)
    (hs : t.length ≤ s) (h : p.find_from t s = .ok (some m)) :
    m.start = 0 ∧ m.endPos = byteLen t ∧
      ¬ (p.elements.head? = some PatternElement.StartAnchor ∧ 0 < s) := by
  obtain ⟨cur, hc, hm, hpre⟩ := find_from_some p t s m h
  have h1 := consumeLoop_ge p.strippedElements t s cur hc
  have h2 := consumeLoop_le_max p.strippedElements t s cur hc
  have hcur : cur = s := by omega
  subst hcur
  subst hm
  refine ⟨mkMatch_start_ge t cur cur hs, mkMatch_end_ge t cur cur (by omega), ?_⟩
  intro hcontra
  exact hpre ⟨hcontra.1, hcontra.2, Or.inl hs⟩

/-- `find_from` strictly beyond the character count, for a pattern with no
start anchor: either the end-anchor bounds check panics, or the bogus
whole-text match is returned. -/
theorem find_from_gt (p : SimplePattern) (t : List Char) (s : Nat)
    (hlen : t.length < s) (hns : ¬ p.elements.head? = some PatternElement.StartAnchor) :
    p.find_from t s = .error () ∨ p.find_from t s = .ok (some (mkMatch t s s)) := by
  have hc := consumeLoop_gt p.strippedElements t s hlen
  rw [SimplePattern.find_from, if_neg (fun hcontra => hns hcontra.1), hc]
  dsimp only
  by_cases hend : p.elements.getLast? = some PatternElement.EndAnchor ∧ ¬ s = t.length ∧
      0 < s
  · rw [if_pos hend]
    have hg : t.get? (s - 1) = none := List.get?_eq_none.mpr (by omega)
    rw [hg]
    exact Or.inl rfl
  · rw [if_neg hend]
    exact Or.inr rfl

theorem mkMatch_gt_start (t : List Char) (s : Nat) (hs : t.length ≤ s) :
    (mkMatch t s s).start = 0 ∧ (mkMatch t s s).endPos = byteLen t :=
  ⟨mkMatch_start_ge t s s hs, mkMatch_end_ge t s s hs⟩

/-- Once the cursor sits at the byte length with a successful whole-text
match there, `find_all_loop` re-produces the same match forever: the loop
never returns a list (fuel exhaustion or the propagated panic). -/
theorem find_all_loop_stuck (p : SimplePattern) (t : List Char) (m0 : Match)
    (hb : p.find_from t (byteLen t) = .ok (some m0)) (h0 : m0.start = 0)
    (he : m0.endPos = byteLen t) (hpos : 0 < byteLen t) :
    ∀ fuel, p.find_all_loop t fuel (byteLen t) = .ok none ∨
      p.find_all_loop t fuel (byteLen t) = .error () := by
  intro fuel
  induction fuel with
  | zero => exact Or.inl rfl
  | succ f ih =>
    rw [SimplePattern.find_all_loop, if_pos (Nat.le_refl _), hb]
    dsimp only
    rw [h0, he, if_pos hpos]
    rcases ih with hih | hih <;> rw [hih]
    · exact Or.inl rfl
    · exact Or.inr rfl

/-- Past the byte length the loop exits with an empty batch. -/
theorem find_all_loop_done (p : SimplePattern) (t : List Char) (fuel s : Nat)
    (hs : byteLen t < s) (l : List Match)
    (h : p.find_all_loop t fuel s = .ok (some l)) : l = [] := by
  cases fuel with
  | zero => cases h
  | succ f =>
    rw [SimplePattern.find_all_loop, if_neg (by omega)] at h
    injection h with h1
    injection h1 with h2
    exact h2.symm

/-- The ordering the spec promises between consecutive `find_all` results:
the next match starts at or after the previous end, strictly after it when
the previous match was empty. -/
def ForwardRel (a b : Match) : Prop :=
  a.endPos ≤ b.start ∧ (a.start = a.endPos → a.endPos < b.start)

instance : DecidablePred fun ab : Match × Match => ForwardRel ab.1 ab.2 := by
  intro ab
  unfold ForwardRel
  infer_instance

/-- `find_all` results are non-overlapping and forward-progressing. -/
def ForwardProgress (l : List Match) : Prop := List.Chain' ForwardRel l

/-- Invariant of the `find_all` loop: every match of a returned batch
starts at or after the cursor, and the batch is forward-progressing. -/
theorem find_all_loop_inv (p : SimplePattern) (t : List Char) :
    ∀ (fuel s : Nat) (l : List Match), p.find_all_loop t fuel s = .ok (some l) →
      (∀ m ∈ l, s ≤ m.start) ∧ ForwardProgress l := by
  intro fuel
  induction fuel with
  | zero => intro s l h; cases h
  | succ f ih =>
    intro s l h
    by_cases hsb : s ≤ byteLen t
    case neg =>
      rw [SimplePattern.find_all_loop, if_neg hsb] at h
      injection h with h1
      injection h1 with h2
      subst h2
      exact ⟨by simp, List.chain'_nil⟩
    case pos =>
      rw [SimplePattern.find_all_loop, if_pos hsb] at h
      rcases hf : p.find_from t s with er | om
      · rw [hf] at h; cases h
      · rw [hf] at h
        rcases om with _ | m
        · dsimp only at h
          obtain ⟨hb, hc⟩ := ih (s + 1) l h
          exact ⟨fun m2 hm2 => Nat.le_trans (Nat.le_succ s) (hb m2 hm2), hc⟩
        · dsimp only at h
          rcases hr : p.find_all_loop t f
              (if m.start < m.endPos then m.endPos else m.start + 1) with er2 | ol
          · rw [hr] at h; cases h
          · rw [hr] at h
            rcases ol with _ | l'
            · cases h
            · dsimp only at h
              injection h with h1
              injection h1 with h2
              have hl : l = m :: l' := h2.symm
              subst hl
              obtain ⟨hb2, hc2⟩ := ih _ l' hr
              by_cases hsl : s < t.length
              · -- the regular case: the match starts at character index s
                obtain ⟨cur, hcons, hm, _⟩ := find_from_some p t s m hf
                have hge := consumeLoop_ge _ t s cur hcons
                have hle := consumeLoop_le_max _ t s cur hcons
                have hstart : m.start = byteIdxOf t s := by
                  rw [hm]; exact mkMatch_start_lt t s cur hsl
                have hss : s ≤ m.start := by
                  rw [hstart]; exact self_le_byteIdxOf t (Nat.le_of_lt hsl)
                have hse : m.start ≤ m.endPos := by
                  rcases Nat.lt_or_ge cur t.length with hclen | hclen
                  · rw [hm, mkMatch_end_lt t s cur hclen, mkMatch_start_lt t s cur hsl]
                    exact byteIdxOf_mono t hge
                  · rw [hm, mkMatch_end_ge t s cur hclen, mkMatch_start_lt t s cur hsl]
                    exact byteIdxOf_le_byteLen t s
                have hnext_ge : m.start ≤
                    (if m.start < m.endPos then m.endPos else m.start + 1) := by
                  by_cases hlt : m.start < m.endPos
                  · rw [if_pos hlt]; omega
                  · rw [if_neg hlt]; omega
                refine ⟨?_, ?_⟩
                · intro m2 hm2
                  rcases List.mem_cons.mp hm2 with he2 | hin
                  · subst he2; exact hss
                  · exact Nat.le_trans (Nat.le_trans hss hnext_ge) (hb2 m2 hin)
                · refine List.chain'_cons'.mpr ⟨?_, hc2⟩
                  intro y hy
                  have hyl : y ∈ l' := List.mem_of_mem_head? hy
                  have hys := hb2 y hyl
                  by_cases hlt : m.start < m.endPos
                  · rw [if_pos hlt] at hys
                    exact ⟨hys, fun hEq => absurd hEq (by omega)⟩
                  · rw [if_neg hlt] at hys
                    have : m.start = m.endPos := by omega
                    exact ⟨by omega, fun _ => by omega⟩
              · -- the cursor is at or beyond the character count
                have hs_ge := Nat.le_of_not_lt hsl
                by_cases hs0 : s = 0
                · -- only possible for the empty text
                  subst hs0
                  have hlen0 : t.length = 0 := by omega
                  have ht : t = [] := List.length_eq_zero.mp hlen0
                  subst ht
                  obtain ⟨cur, hcons, hm, _⟩ := find_from_some p [] 0 m hf
                  have hge := consumeLoop_ge _ [] 0 cur hcons
                  have hle := consumeLoop_le_max _ [] 0 cur hcons
                  have hcur : cur = 0 := by simp at hle; omega
                  subst hcur
                  have hm0 : m.start = 0 := by rw [hm]; exact mkMatch_start_ge [] 0 0 (by simp)
                  have hmE : m.endPos = 0 := by
                    rw [hm]
                    have := mkMatch_end_ge [] 0 0 (by simp)
                    simpa [byteLen_nil] using this
                  have hnext : (if m.start < m.endPos then m.endPos else m.start + 1) = 1 := by
                    rw [hm0, hmE]
                    simp
                  rw [hnext] at hr
                  have hl' : l' = [] := find_all_loop_done p [] f 1 (by simp [byteLen_nil]) l' hr
                  subst hl'
                  exact ⟨by intro m2 hm2; simp at hm2; subst hm2; omega,
                    List.chain'_singleton m⟩
                · -- s > 0: the loop is stuck on the bogus whole-text match
                  have hpos0 : 0 < s := Nat.pos_of_ne_zero hs0
                  obtain ⟨hm0, hmE, hnostart⟩ := find_from_large p t s m hs_ge hf
                  have hns : ¬ p.elements.head? = some PatternElement.StartAnchor :=
                    fun hcon => hnostart ⟨hcon, hpos0⟩
                  have hbl : 0 < byteLen t := Nat.lt_of_lt_of_le hpos0 hsb
                  have hnext : (if m.start < m.endPos then m.endPos else m.start + 1) =
                      byteLen t := by
                    rw [hm0, hmE, if_pos hbl]
                  rw [hnext] at hr
                  rcases Nat.lt_or_ge t.length (byteLen t) with hlt2 | hge2
                  · rcases find_from_gt p t (byteLen t) hlt2 hns with herr | hok
                    · cases f with
                      | zero => cases hr
                      | succ f2 =>
                        rw [SimplePattern.find_all_loop, if_pos (Nat.le_refl _), herr] at hr
                        cases hr
                    · obtain ⟨hball, hbE⟩ := mkMatch_gt_start t (byteLen t) (Nat.le_of_lt hlt2)
                      rcases find_all_loop_stuck p t _ hok hball hbE hbl f with hst | hst <;>
                        rw [hst] at hr <;> cases hr
                  · have hEq : byteLen t = t.length :=
                      Nat.le_antisymm hge2 (length_le_byteLen t)
                    have hsEq : s = byteLen t := by omega
                    rw [hsEq] at hf
                    rcases find_all_loop_stuck p t m hf hm0 hmE hbl f with hst | hst <;>
                      rw [hst] at hr <;> cases hr

/-! ### Reconstruction of the text from split segments and matches -/

/-- Alternating interleaving (segment, match, segment, ...) of split
segments with matched substrings, as the spec's reconstruction property
reads. -/
def interleave : List (List Char) → List (List Char) → List Char
  | [], ms => ms.flatten
  | s :: ss, [] => s ++ ss.flatten
  | s :: ss, mm :: ms => s ++ mm ++ interleave ss ms

theorem byteIdxOf_eq_zero_drop (t : List Char) (i : Nat) (h : byteIdxOf t i = 0) :
    t.drop i = t := by
  cases t with
  | nil => simp
  | cons c cs =>
    cases i with
    | zero => simp
    | succ k =>
      rw [byteIdxOf_cons_succ] at h
      have := Char.utf8Size_pos c
      omega

/-- Every match produced by the `find_all` loop is well formed. -/
theorem find_all_loop_wf (p : SimplePattern) (t : List Char) :
    ∀ (fuel s : Nat) (l : List Match), p.find_all_loop t fuel s = .ok (some l) →
      ∀ m ∈ l, MatchWF t m := by
  intro fuel
  induction fuel with
  | zero => intro s l h; cases h
  | succ f ih =>
    intro s l h
    by_cases hsb : s ≤ byteLen t
    case neg =>
      rw [SimplePattern.find_all_loop, if_neg hsb] at h
      injection h with h1
      injection h1 with h2
      subst h2
      simp
    case pos =>
      rw [SimplePattern.find_all_loop, if_pos hsb] at h
      rcases hf : p.find_from t s with er | om
      · rw [hf] at h; cases h
      · rw [hf] at h
        rcases om with _ | m
        · dsimp only at h
          exact ih (s + 1) l h
        · dsimp only at h
          rcases hr : p.find_all_loop t f
              (if m.start < m.endPos then m.endPos else m.start + 1) with er2 | ol
          · rw [hr] at h; cases h
          · rw [hr] at h
            rcases ol with _ | l'
            · cases h
            · dsimp only at h
              injection h with h1
              injection h1 with h2
              have hl : l = m :: l' := h2.symm
              subst hl
              intro m2 hm2
              rcases List.mem_cons.mp hm2 with he2 | hin
              · subst he2
                obtain ⟨cur, hcons, hm, _⟩ := find_from_some p t s m2 hf
                have hge := consumeLoop_ge _ t s cur hcons
                rw [hm]
                exact mkMatch_wf t s cur hge
              · exact ih _ l' hr m2 hin

/-- Core reconstruction property of the split loop, for strictly separated
well-formed matches: it emits one segment per gap (matches + 1 in total)
and interleaving them with the match texts rebuilds the remaining text. -/
theorem splitGo_spec (t : List Char) :
    ∀ (l : List Match) (i0 : Nat), i0 ≤ t.length →
      (∀ m ∈ l, MatchWF t m) →
      List.Chain' (fun a b => a.endPos < b.start) l →
      (∀ m, l.head? = some m → byteIdxOf t i0 = 0 ∨ byteIdxOf t i0 < m.start) →
      (splitGo t (byteIdxOf t i0) l).length = l.length + 1 ∧
        interleave (splitGo t (byteIdxOf t i0) l) (l.map Match.text) = t.drop i0 := by
  intro l
  induction l with
  | nil =>
    intro i0 hi0 _ _ _
    rcases Nat.lt_or_ge i0 t.length with hlt | hge
    · have hstrict : byteIdxOf t i0 < byteLen t := by
        have := byteIdxOf_strict t hlt (Nat.le_refl t.length)
        rwa [byteIdxOf_length] at this
      rw [splitGo, if_pos hstrict]
      constructor
      · rfl
      · show byteSlice t (byteIdxOf t i0) (byteLen t) ++ List.flatten [] = t.drop i0
        rw [← byteIdxOf_length t, byteSlice_boundary, List.take_length]
        simp
    · have hi0e : i0 = t.length := by omega
      subst hi0e
      rw [byteIdxOf_length]
      rw [splitGo, if_neg (by omega)]
      constructor
      · rfl
      · show [] ++ List.flatten [] = t.drop t.length
        simp
  | cons m ms ih =>
    intro i0 hi0 hwf hsep hhead
    obtain ⟨i, j, hij, hjlen, hmstart, hmend, hmtext⟩ := hwf m (List.mem_cons_self m ms)
    have hwf2 : ∀ m2 ∈ ms, MatchWF t m2 := fun m2 hm2 => hwf m2 (List.mem_cons_of_mem m hm2)
    obtain ⟨hrel, hsep2⟩ := List.chain'_cons'.mp hsep
    have hhead2 : ∀ m2, ms.head? = some m2 → byteIdxOf t j = 0 ∨ byteIdxOf t j < m2.start := by
      intro m2 hm2
      right
      have := hrel m2 hm2
      rwa [hmend] at this
    obtain ⟨ihlen, ihcat⟩ := ih j hjlen hwf2 hsep2 hhead2
    by_cases hgap : byteIdxOf t i0 < m.start
    · -- a (possibly empty through position 0) gap precedes this match
      have hi0i : i0 < i := by
        by_contra hgei
        have := byteIdxOf_mono t (Nat.le_of_not_lt hgei)
        rw [hmstart] at hgap
        omega
      rw [splitGo, if_pos hgap, hmstart, hmend]
      constructor
      · simp [List.length_append, ihlen]
      · rw [List.singleton_append, List.map_cons]
        show byteSlice t (byteIdxOf t i0) (byteIdxOf t i) ++ m.text ++
          interleave (splitGo t (byteIdxOf t j) ms) (ms.map Match.text) = t.drop i0
        rw [byteSlice_boundary, hmtext, ihcat, List.append_assoc]
        rw [drop_take_drop t i j hij]
        exact drop_take_drop t i0 i (Nat.le_of_lt hi0i)
    · -- the match is flush with the cursor, which must then sit at offset 0
      have hz : byteIdxOf t i0 = 0 := (hhead m rfl).resolve_right hgap
      have hms0 : m.start = 0 := by omega
      have hbi : byteIdxOf t i = 0 := by rw [← hmstart]; exact hms0
      rw [splitGo, if_neg hgap, if_pos hz, hmend]
      constructor
      · simp [ihlen]
      · rw [List.singleton_append, List.map_cons]
        show [] ++ m.text ++
          interleave (splitGo t (byteIdxOf t j) ms) (ms.map Match.text) = t.drop i0
        rw [List.nil_append, hmtext, ihcat]
        rw [drop_take_drop t i j hij]
        rw [byteIdxOf_eq_zero_drop t i hbi, byteIdxOf_eq_zero_drop t i0 hz]

/-- A pattern ending in a lone (unescaped) backslash fails to compile: the
main loop reaches the final `\` with nothing after it and reports the
incomplete-escape error (or trips over an earlier dangling quantifier —
either way compilation errors out). -/
theorem parseElems_trailing_backslash : ∀ (l : List Char) (acc : List PatternElement),
    '\\' ∉ l → ∃ e, parseElems (l ++ ['\\']) acc = .error e
  | [], acc, _ => ⟨.InvalidPattern "incomplete escape character", rfl⟩
  | c :: rest, acc, hn => by
    have hc : ¬ c = '\\' := fun h => hn (by simp [h])
    have hrest : '\\' ∉ rest := fun h => hn (List.mem_cons_of_mem c h)
    rw [List.cons_append, parseElems.eq_def]
    dsimp only
    rw [if_neg hc]
    by_cases hdot : c = '.'
    · rw [if_pos hdot]
      exact parseElems_trailing_backslash rest _ hrest
    · rw [if_neg hdot]
      by_cases hdol : c = '$'
      · rw [if_pos hdol]
        rw [if_neg (by simp)]
        exact parseElems_trailing_backslash rest _ hrest
      · rw [if_neg hdol]
        by_cases hq : c = '*' ∨ c = '+' ∨ c = '?'
        · rw [if_pos hq]
          rcases acc with _ | ⟨last, accRest⟩
          · exact ⟨.InvalidPattern "quantifier without preceding element", rfl⟩
          · exact parseElems_trailing_backslash rest _ hrest
        · rw [if_neg hq]
          exact parseElems_trailing_backslash rest _ hrest

/-- When every alternative re-compiles without the byte-slice panic and
its search returns `Ok` with no files, the alternative loop only merges
empty batches and keeps the accumulator. -/
theorem altFilesLoop_ok_nil (F : GlobPattern → Option (Except GlobErr (List (List Char))))
    (ef : Nat) :
    ∀ (pats : List (List Char)) (acc : List (List Char)),
      (∀ pat ∈ pats, ∃ g2, GlobPattern.new ef pat = some (Except.ok g2) ∧
        (F g2 = none ∨ F g2 = some (.ok []))) →
      altFilesLoop F ef pats acc = none ∨ altFilesLoop F ef pats acc = some (.ok acc) := by
  intro pats
  induction pats with
  | nil => intro acc _; exact Or.inr rfl
  | cons pat rest ih =>
    intro acc h
    obtain ⟨g2, hg2, hFg⟩ := h pat (by simp)
    rw [altFilesLoop, hg2]
    dsimp only
    rcases hFg with hFg | hFg <;> rw [hFg]
    · exact Or.inl rfl
    · dsimp only
      simpa using ih acc (fun p hp => h p (List.mem_cons_of_mem pat hp))

/-! ## The claims -/

/-- C1: the claim says the match-time operations are total and never
panic, in particular for a quantifier applied to an already-quantified
element such as `"a**"`.  The code refutes this: `SimplePattern::new`
accepts `"a**"` (wrapping the quantified element in a second quantifier),
and `is_match` on the text `"a"` then calls `matches_element` on a
`Quantifier` element, which is the source's explicit
`panic!("Les quantificateurs ne peuvent pas être testés directement")`.
This theorem evaluates the embedded code at that failing input: compilation
succeeds and matching panics. -/
theorem c1_matching_panics_on_nested_quantifier :
    SimplePattern.new ['a', '*', '*'] =
      .ok ⟨[PatternElement.Quantifier
              (PatternElement.Quantifier (PatternElement.Literal 'a')
                QuantifierType.ZeroOrMore) QuantifierType.ZeroOrMore], ['a', '*', '*']⟩ ∧
    (SimplePattern.new ['a', '*', '*']).map (fun p => p.is_match ['a']) =
      .ok (.error ()) :=
  ⟨rfl, rfl⟩

/-- C2 counterexample: the claim says a regex compiled from `""` matches a
text iff the text is empty.  In the code the empty pattern does NOT match
the empty text (`find` scans the empty byte range `0..0` and never calls
`find_from`), yet it DOES match `"a"` (a zero-width match at offset 0). -/
theorem c2_counterexample :
    SimplePattern.new [] = .ok ⟨[], []⟩ ∧
    SimplePattern.is_match ⟨[], []⟩ [] = .ok false ∧
    SimplePattern.is_match ⟨[], []⟩ ['a'] = .ok true :=
  ⟨rfl, rfl, rfl⟩

/-- C2 amended: the glob engine behaves as the claim states (the empty
pattern matches exactly the empty text), but the regex engine matches a
text iff the text is NON-empty: `find` tries the byte offsets
`0..text.len()`, an empty range for the empty text, and the zero-width
match at offset 0 succeeds for every other text. -/
theorem c2_empty_pattern :
    SimplePattern.new [] = .ok ⟨[], []⟩ ∧
    (∀ t : List Char, SimplePattern.is_match ⟨[], []⟩ t = .ok (!t.isEmpty)) ∧
    (∀ (ef fuel : Nat) (t : List Char),
      (GlobPattern.new ef []).map
          (Except.map (fun g => GlobPattern.matchesText fuel g t)) =
        some (.ok (some (.ok t.isEmpty)))) := by
  refine ⟨rfl, ?_, ?_⟩
  · intro t
    cases t with
    | nil => rfl
    | cons c cs =>
      have hpos : 0 < byteLen (c :: cs) := by
        rw [byteLen_cons]
        have := Char.utf8Size_pos c
        omega
      obtain ⟨n, hn⟩ := Nat.exists_eq_succ_of_ne_zero (Nat.pos_iff_ne_zero.mp hpos)
      rw [SimplePattern.is_match, SimplePattern.find,
        if_neg (by intro hcon; cases hcon), hn, List.range_succ_eq_map, findScan]
      have hff : SimplePattern.find_from ⟨[], []⟩ (c :: cs) 0 =
          .ok (some (mkMatch (c :: cs) 0 0)) := by
        rw [SimplePattern.find_from, if_neg (fun hcon => Nat.lt_irrefl 0 hcon.2.1)]
        rw [show consumeLoop (SimplePattern.strippedElements ⟨[], []⟩) (c :: cs) 0 =
          .ok (some 0) from rfl]
        dsimp only
        rw [if_neg (fun hcon => by cases hcon.1)]
      rw [hff]
      rfl
  · intro ef fuel t
    have hnew : GlobPattern.new ef [] = some (.ok ⟨[], [], []⟩) := by
      rw [GlobPattern.new, GlobPattern.parse, if_neg (by simp)]
      rw [show parseComponentsGo [] [] = [] from by rw [parseComponentsGo]; rfl]
      rfl
    rw [hnew]
    have hred : Option.map (Except.map (fun g => GlobPattern.matchesText fuel g t))
        ((some (Except.ok ⟨[], [], []⟩) : Option (Except Unit GlobPattern))) =
        some (Except.ok (GlobPattern.matchesText fuel ⟨[], [], []⟩ t)) := rfl
    rw [hred]
    rw [show GlobPattern.matchesText fuel ⟨[], [], []⟩ t =
      some (.ok (matches_from_position [] t)) from by
        rw [GlobPattern.matchesText, if_pos (by simp)]]
    rw [show matches_from_position [] t = t.isEmpty from by
      rw [matches_from_position]]

/-- C3: the claim says every `Match` from `find`/`find_all` reports the
exact byte offsets of the character positions where the match began and
ended.  The code refutes it — and the spec itself marks exactness as the
intent — because `find` iterates over the BYTE range `0..text.len()` while
`find_from` interprets the offset as a CHARACTER index: on `"éé"`
(2 characters, 4 bytes) with the pattern `"x"`, the attempt at offset 3
starts beyond the character count, consumes nothing, and
`char_indices().nth(3)` falls back to the defaults `0`/`text.len()`, so
the code reports a match spanning the whole text even though `x` occurs
nowhere in it. -/
theorem c3_byte_offset_confusion :
    (SimplePattern.new ['x']).map (fun p => p.find ['é', 'é']) =
      .ok (.ok (some ⟨['é', 'é'], 0, 4⟩)) ∧
    (∀ c ∈ ['é', 'é'], ¬ c = 'x') :=
  ⟨rfl, by decide⟩

/-- C4 counterexample: the claim says interleaving the segments of
`split(R,T)` with the matched substrings of `find_all(R,T)` as
(segment, match, ..., segment) reconstructs `T` exactly.  For `R = "a"`
and `T = "aaxa"` the code finds three matches but `split` emits only two
gap segments plus the trailing one (the segment between the two adjacent
`a` matches is dropped because `m.start > last_end` fails and
`last_end ≠ 0`), so there are 3 segments instead of 4 and the interleaving
rebuilds `"axaa" ≠ "aaxa"`. -/
theorem c4_counterexample :
    (SimplePattern.new ['a']).map (fun p => p.find_all ['a', 'a', 'x', 'a'] 10) =
      .ok (.ok (some [⟨['a'], 0, 1⟩, ⟨['a'], 1, 2⟩, ⟨['a'], 3, 4⟩])) ∧
    (SimplePattern.new ['a']).map (fun p => p.split ['a', 'a', 'x', 'a'] 10) =
      .ok (.ok (some [[], ['x'], []])) ∧
    ¬ ([[], ['x'], []] : List (List Char)).length = 3 + 1 ∧
    ¬ interleave [[], ['x'], []] [['a'], ['a'], ['a']] = ['a', 'a', 'x', 'a'] :=
  ⟨rfl, rfl, by decide, by decide⟩

/-- C4 amended: whenever `find_all` returns a match list whose consecutive
matches are strictly separated (each match ends strictly before the next
one starts), `split` emits exactly one segment more than there are matches
and interleaving the segments with the matched substrings reconstructs the
text exactly.  (The counterexample shows the claim fails as soon as two
matches are adjacent.) -/
theorem c4_split_reconstruction (p : SimplePattern) (t : List Char) (fuel : Nat)
    (l : List Match) (hall : p.find_all t fuel = .ok (some l))
    (hsep : List.Chain' (fun a b => a.endPos < b.start) l) :
    p.split t fuel = .ok (some (splitList t l)) ∧
    (splitList t l).length = l.length + 1 ∧
    interleave (splitList t l) (l.map Match.text) = t := by
  have hwf := find_all_loop_wf p t fuel 0 l hall
  refine ⟨?_, ?_, ?_⟩
  · rw [SimplePattern.split, hall]
    rfl
  · cases l with
    | nil => simp [splitList]
    | cons m ms =>
      rw [splitList, if_neg (by simp)]
      exact (splitGo_spec t (m :: ms) 0 (Nat.zero_le _) hwf hsep
        (fun m2 _ => Or.inl (byteIdxOf_zero t))).1
  · cases l with
    | nil =>
      simp [splitList, interleave]
    | cons m ms =>
      rw [splitList, if_neg (by simp)]
      have := (splitGo_spec t (m :: ms) 0 (Nat.zero_le _) hwf hsep
        (fun m2 _ => Or.inl (byteIdxOf_zero t))).2
      rw [List.drop_zero] at this
      exact this

/-- C4 witness: the amended statement at the pattern `"a"`, text `"ab"`,
with the single (separated) match at offsets 0–1. -/
theorem c4_witness :
    (⟨[PatternElement.Literal 'a'], ['a']⟩ : SimplePattern).split ['a', 'b'] 5 =
      .ok (some (splitList ['a', 'b'] ([⟨['a'], 0, 1⟩] : List Match))) ∧
    (splitList ['a', 'b'] ([⟨['a'], 0, 1⟩] : List Match)).length =
      ([⟨['a'], 0, 1⟩] : List Match).length + 1 ∧
    interleave (splitList ['a', 'b'] ([⟨['a'], 0, 1⟩] : List Match))
      (([⟨['a'], 0, 1⟩] : List Match).map Match.text) = ['a', 'b'] :=
  c4_split_reconstruction ⟨[PatternElement.Literal 'a'], ['a']⟩ ['a', 'b'] 5
    [⟨['a'], 0, 1⟩] rfl (by simp)

/-- C5 counterexample: the claim's own example says `"abc$"` matches
`"abc\nx"` (the match ending immediately before the newline).  The code
refutes it: the end-anchor check tests the character BEFORE the final
position, `text_chars[current_pos - 1] == '\n'`, so after consuming
`"abc"` (position 3, preceding character `'c'`) the anchor fails, and no
other offset matches either. -/
theorem c5_counterexample :
    (SimplePattern.new ['a', 'b', 'c', '$']).map
      (fun p => p.is_match ['a', 'b', 'c', '\n', 'x']) = .ok (.ok false) :=
  rfl

/-- C5 amended: for an end-anchored pattern (no start anchor), a match
attempt at a given start position succeeds exactly when the position
`cur` reached after consuming the interior elements equals the text
length, or equals 0, or the character immediately BEFORE `cur` is a
newline (the match ends just after a newline, not just before one). -/
theorem c5_end_anchor (p : SimplePattern) (t : List Char) (s cur : Nat)
    (hEnd : p.elements.getLast? = some PatternElement.EndAnchor)
    (hNoStart : ¬ p.elements.head? = some PatternElement.StartAnchor)
    (hcons : consumeLoop p.strippedElements t s = .ok (some cur))
    (hcur : cur ≤ t.length) :
    (∃ m, p.find_from t s = .ok (some m)) ↔
      (cur = t.length ∨ cur = 0 ∨ t.get? (cur - 1) = some '\n') := by
  rw [SimplePattern.find_from, if_neg (fun hcontra => hNoStart hcontra.1), hcons]
  dsimp only
  by_cases hcnd : p.elements.getLast? = some PatternElement.EndAnchor ∧
      ¬ cur = t.length ∧ 0 < cur
  · rw [if_pos hcnd]
    obtain ⟨-, hne, hpos⟩ := hcnd
    rcases hch : t.get? (cur - 1) with _ | ch
    · have := List.get?_eq_none.mp hch
      omega
    · dsimp only
      by_cases hnl : ch = '\n'
      · subst hnl
        rw [if_pos rfl]
        constructor
        · intro _
          exact Or.inr (Or.inr rfl)
        · intro _
          exact ⟨mkMatch t s cur, rfl⟩
      · rw [if_neg hnl]
        constructor
        · rintro ⟨m, hm⟩
          cases hm
        · rintro (h1 | h2 | h3)
          · exact absurd h1 hne
          · omega
          · injection h3 with h4
            exact absurd h4 hnl
  · rw [if_neg hcnd]
    constructor
    · intro _
      by_cases h1 : cur = t.length
      · exact Or.inl h1
      · by_cases h2 : 0 < cur
        · exact absurd ⟨hEnd, h1, h2⟩ hcnd
        · exact Or.inr (Or.inl (by omega))
    · intro _
      exact ⟨mkMatch t s cur, rfl⟩

/-- C5 witness: the amended statement at the pattern `"abc$"` and text
`"abc"`, where the interior elements consume to position 3 = text
length. -/
theorem c5_witness :
    (∃ m, (⟨[PatternElement.Literal 'a', PatternElement.Literal 'b',
        PatternElement.Literal 'c', PatternElement.EndAnchor], ['a', 'b', 'c', '$']⟩ :
        SimplePattern).find_from ['a', 'b', 'c'] 0 = .ok (some m)) ↔
      (3 = (['a', 'b', 'c'] : List Char).length ∨ 3 = 0 ∨
        (['a', 'b', 'c'] : List Char).get? (3 - 1) = some '\n') :=
  c5_end_anchor ⟨[PatternElement.Literal 'a', PatternElement.Literal 'b',
      PatternElement.Literal 'c', PatternElement.EndAnchor], ['a', 'b', 'c', '$']⟩
    ['a', 'b', 'c'] 0 3 rfl (by decide) rfl (by decide)

/-- C6 counterexample: the claim says a trailing lone backslash compiles
to a literal backslash, so `"a\"` would compile and match `"a\"`.  The
code refutes this: the escape branch finds no following character and
compilation fails with the incomplete-escape `InvalidPattern` error. -/
theorem c6_counterexample :
    SimplePattern.new ['a', '\\'] =
      .error (PatternError.InvalidPattern "incomplete escape character") :=
  rfl

/-- C6 amended: compiling a pattern whose final character is a lone
unescaped backslash always FAILS (it never yields a literal backslash
element): for any prefix free of backslashes, `new` returns an error —
the incomplete-escape error, or an earlier dangling-quantifier error. -/
theorem c6_trailing_backslash_is_error (cs : List Char) (h : '\\' ∉ cs) :
    ∃ e, SimplePattern.new (cs ++ ['\\']) = .error e := by
  rcases cs with _ | ⟨c0, cs2⟩
  · exact ⟨.InvalidPattern "incomplete escape character", rfl⟩
  · have hc0 : ¬ c0 = '^' ∨ c0 = '^' := (em (c0 = '^')).symm
    have hcs2 : '\\' ∉ cs2 := fun hh => h (List.mem_cons_of_mem c0 hh)
    by_cases hcaret : c0 = '^'
    · subst hcaret
      rw [List.cons_append]
      simp only [SimplePattern.new.eq_def, ite_true]
      obtain ⟨e, he⟩ := parseElems_trailing_backslash cs2 [] hcs2
      rw [he]
      exact ⟨e, rfl⟩
    · rw [List.cons_append]
      simp only [SimplePattern.new.eq_def, if_neg hcaret]
      obtain ⟨e, he⟩ := parseElems_trailing_backslash (c0 :: cs2) [] h
      rw [List.cons_append] at he
      rw [he]
      exact ⟨e, rfl⟩

/-- C6 witness: the amended statement at the prefix `"a"`. -/
theorem c6_witness : ∃ e, SimplePattern.new (['a'] ++ ['\\']) = .error e :=
  c6_trailing_backslash_is_error ['a'] (by decide)

/-- C7: whenever `find_all` returns a result list, its successive matches
are non-overlapping and forward-progressing — each match starts at or
after the previous match's end offset, and strictly after it when the
previous match was empty.  (On inputs where the source loop never
terminates or panics, no list is returned and nothing is claimed.) -/
theorem c7_find_all_forward (p : SimplePattern) (t : List Char) (fuel : Nat)
    (l : List Match) (h : p.find_all t fuel = .ok (some l)) : ForwardProgress l :=
  (find_all_loop_inv p t fuel 0 l h).2

/-- C7 witness: the pattern `"a"` on `"axa"` yields the two matches
(0,1) and (2,3), which are forward-progressing. -/
theorem c7_witness : ForwardProgress [⟨['a'], 0, 1⟩, ⟨['a'], 2, 3⟩] :=
  c7_find_all_forward ⟨[PatternElement.Literal 'a'], ['a']⟩ ['a', 'x', 'a'] 6
    [⟨['a'], 0, 1⟩, ⟨['a'], 2, 3⟩] rfl

/-- C8: for a compiled glob with no brace alternatives, `matches`
delegates to `matches_from_position`, and the recursion terminates exactly
as the claim states: with the component list exhausted, the match succeeds
iff the text is also exhausted (so text left over means failure); with the
text exhausted but components remaining, it succeeds iff every remaining
component is a `MultiWildcard`. -/
theorem c8_glob_termination (g : GlobPattern) (hng : g.expandedPatterns = [])
    (fuel : Nat) (comps : List Component) (ts : List Char) :
    GlobPattern.matchesText fuel g ts =
      some (.ok (matches_from_position g.components ts)) ∧
    matches_from_position [] ts = ts.isEmpty ∧
    matches_from_position comps [] = comps.all Component.isMultiWildcard := by
  refine ⟨?_, ?_, ?_⟩
  · rw [GlobPattern.matchesText, if_pos (by simp [hng])]
  · rw [matches_from_position]
  · induction comps with
    | nil => rw [matches_from_position]; rfl
    | cons c rest ih =>
      rcases c with lit | _ | _ | ⟨chars, negated⟩ <;>
        simp [matches_from_position, Component.isMultiWildcard, ih]

/-- C8 witness: a glob with components and no alternatives. -/
theorem c8_witness :
    GlobPattern.matchesText 3 ⟨['a'], [Component.Literal ['a']], []⟩ ['x'] =
      some (.ok (matches_from_position [Component.Literal ['a']] ['x'])) ∧
    matches_from_position [] ['x'] = (['x'] : List Char).isEmpty ∧
    matches_from_position [Component.MultiWildcard] [] =
      ([Component.MultiWildcard] : List Component).all Component.isMultiWildcard :=
  c8_glob_termination ⟨['a'], [Component.Literal ['a']], []⟩ rfl 3
    [Component.MultiWildcard] ['x']

/-- C9: brace expansion of `"a{b,c}d"` yields exactly `["abd", "acd"]`,
in left-to-right option order — both as the raw `expand_alternatives`
result and as the `expanded_patterns` of the compiled glob. -/
theorem c9_brace_expansion :
    expand_alternatives 3 ['a', '{', 'b', ',', 'c', '}', 'd'] =
      some (.ok [['a', 'b', 'd'], ['a', 'c', 'd']]) ∧
    (GlobPattern.new 3 ['a', '{', 'b', ',', 'c', '}', 'd']).map
      (Except.map GlobPattern.expandedPatterns) =
      some (.ok [['a', 'b', 'd'], ['a', 'c', 'd']]) :=
  ⟨rfl, rfl⟩

/-- C10 counterexample: the claim says a base path that is missing or not
a directory always yields `Ok` with an empty collection.  But `find_files`
re-compiles every expanded alternative with `GlobPattern::new` BEFORE
looking at the base directory, and that re-compilation can panic: the
four-character pattern backslash-brace-é-brace compiles to the single
expanded alternative `{é}` (the escape arm strips the backslash and keeps
the opening brace as a literal character), and re-compiling `{é}` slices
`&pattern[1..2]` — the CHARACTER indices of the braces used as BYTE
offsets — whose upper bound falls inside the two-byte `é`, so the source
panics.  On a file system with no directories at all (every base missing),
`find_files` still ends in the panic, not in `Ok` of an empty
collection. -/
theorem c10_counterexample :
    GlobPattern.new 3 ['\\', '{', 'é', '}'] =
      some (.ok ⟨['\\', '{', 'é', '}'], [], [['{', 'é', '}']]⟩) ∧
    GlobPattern.find_files ⟨fun _ => false, fun _ => .ok []⟩ 3 3
        ⟨['\\', '{', 'é', '}'], [], [['{', 'é', '}']]⟩ ['b'] =
      some (.error GlobErr.panicked) :=
  ⟨rfl, rfl⟩

/-- C10 amended: when the base path handed to `find_files` is not a
directory (including when it does not exist) AND every expanded
alternative of the pattern re-compiles, without hitting the byte-slice
panic, to an alternative-free pattern, the call returns `Ok` with an empty
result collection instead of an I/O error — the direct component path
returns it at once and the alternative path merges the empty per-
alternative batches.  Without that proviso the call can panic even on a
missing base, as the counterexample shows.  (`none` is fuel exhaustion of
the embedding, never a value the source computes.) -/
theorem c10_find_files_missing_base (fs : FileSystem) (mf : Nat) (base : List Char)
    (hdir : fs.isDir base = false) (fuel : Nat) (g : GlobPattern)
    (halt : ∀ pat ∈ g.expandedPatterns,
      ∃ g2, GlobPattern.new fuel pat = some (Except.ok g2) ∧
        g2.expandedPatterns = []) :
    GlobPattern.find_files fs mf (fuel + 1) g base = none ∨
    GlobPattern.find_files fs mf (fuel + 1) g base = some (.ok []) := by
  rw [GlobPattern.find_files]
  by_cases hexp : g.expandedPatterns.isEmpty
  · rw [if_pos hexp]
    rw [GlobPattern.find_files_recursive, if_neg (by simp [hdir])]
    exact Or.inr rfl
  · rw [if_neg hexp]
    refine altFilesLoop_ok_nil (fun g2 => GlobPattern.find_files fs mf fuel g2 base)
      fuel g.expandedPatterns [] ?_
    intro pat hmem
    obtain ⟨g2, hg2, hng⟩ := halt pat hmem
    refine ⟨g2, hg2, ?_⟩
    show GlobPattern.find_files fs mf fuel g2 base = none ∨
      GlobPattern.find_files fs mf fuel g2 base = some (Except.ok [])
    cases fuel with
    | zero => exact Or.inl rfl
    | succ f =>
      right
      rw [GlobPattern.find_files, if_pos (by simp [hng]),
        GlobPattern.find_files_recursive, if_neg (by simp [hdir])]

/-- C10 witness: a file system with no directories at all, and a glob
whose single expanded alternative (the all-ASCII empty group, which the
expansion turns into no alternatives and no components) re-compiles
cleanly. -/
theorem c10_witness :
    GlobPattern.find_files ⟨fun _ => false, fun _ => .ok []⟩ 3 2
        ⟨['\\', '{', '}'], [], [['{', '}']]⟩ ['b'] = none ∨
    GlobPattern.find_files ⟨fun _ => false, fun _ => .ok []⟩ 3 2
        ⟨['\\', '{', '}'], [], [['{', '}']]⟩ ['b'] = some (.ok []) :=
  c10_find_files_missing_base ⟨fun _ => false, fun _ => .ok []⟩ 3 ['b'] rfl 1
    ⟨['\\', '{', '}'], [], [['{', '}']]⟩
    (by
      intro pat hmem
      rw [List.mem_singleton] at hmem
      subst hmem
      exact ⟨⟨['{', '}'], [], []⟩, rfl, rfl⟩)
